import Mathlib

/-!
Verification of the node-label reconciler from
`layer-kubernetes-node-base` (`src/ops/charms/node_base.py`).

The embedding models:
  * python `dict[str, str]` as insertion-ordered association lists
    (`Labels`), with in-place update on existing keys and append on new
    keys, exactly matching CPython dict semantics;
  * python `str.split(sep)` as `splitOnChar` over `List Char`;
  * `LabelMaker.user_labels` (config parsing with strict / non-strict
    malformed-token handling);
  * `LabelMaker.apply_node_labels` as a pure plan of label mutations
    (the sequence of `kubectl label` invocations together with the eager
    per-operation update of the persisted `current_labels` store) plus an
    executor in which an environment-chosen invocation exhausts its
    retries and raises `NodeLabelError`;
  * `LabelMaker.active_labels` including the `_kubectl` binary
    resolution step;
  * `LabelMaker._retried_call` as a discrete-time retry loop.
-/

namespace NodeBase

/-- Label mappings: python dicts as insertion-ordered association lists. -/
abbrev Labels := List (String × String)

/-- Model of `d.get(key)` / `d[key]`: first (unique) binding of a key. -/
def lookupL : Labels → String → Option String
  | [], _ => none
  | (k, v) :: rest, key => if k = key then some v else lookupL rest key

/-- Model of `d[key] = val`: update in place when the key exists, append otherwise
(CPython dicts keep the original position of an updated key). -/
def insertL : Labels → String → String → Labels
  | [], key, val => [(key, val)]
  | (k, v) :: rest, key, val =>
    if k = key then (k, val) :: rest else (k, v) :: insertL rest key val

/-- Model of `del d[key]`: drop every binding of the key (dicts hold at most one). -/
def eraseL (l : Labels) (key : String) : Labels :=
  l.filter fun p => p.1 != key

/-- Model of `list(d.keys())`. -/
def keysL (l : Labels) : List String := l.map Prod.fst

/-- Python `str.split(sep)` for a one-character separator, acting on the
character list of the string: `"".split(sep) == [""]`, and consecutive
separators produce empty tokens. -/
def splitOnChar (sep : Char) : List Char → List (List Char)
  | [] => [[]]
  | c :: cs =>
    if c = sep then [] :: splitOnChar sep cs
    else
      match splitOnChar sep cs with
      | t :: ts => (c :: t) :: ts
      | [] => [[c]]

/-- Python truthiness of `Optional[str]`: `None` and `""` are falsy. -/
def truthy : Option String → Bool
  | none => false
  | some s => s != ""

/-- Model of `val.endswith("-")`. -/
def endsDash (v : String) : Bool :=
  match v.data.getLast? with
  | some c => c = '-'
  | none => false

/-- The warning logged for a malformed token in non-strict mode
(`log.error(f"Skipping Malformed label: ...")`). -/
def skipMsg (item : List Char) : String :=
  "Skipping Malformed label: " ++ String.mk item ++ "."

/-- The exception message raised for a malformed token in strict mode. -/
def malformedMsg (item : List Char) : String :=
  "Malformed label: " ++ String.mk item ++ "."

/-- The token loop of `LabelMaker.user_labels`: `key, val = item.split("=")`
succeeds exactly on two-part splits; otherwise strict mode raises
`NodeLabelError` and non-strict mode logs and skips.  Returns the built
dict together with the list of logged warnings. -/
def parseLabels (strict : Bool) :
    List (List Char) → Labels → List String → Except String (Labels × List String)
  | [], acc, warns => .ok (acc, warns)
  | item :: rest, acc, warns =>
    match splitOnChar '=' item with
    | [k, v] => parseLabels strict rest (insertL acc (String.mk k) (String.mk v)) warns
    | _ =>
      if strict then .error (malformedMsg item)
      else parseLabels strict rest acc (warns ++ [skipMsg item])

/-- Model of `LabelMaker.user_labels`: split the configured string on single spaces
and run the token loop. -/
def user_labels (strict : Bool) (data : String) : Except String (Labels × List String) :=
  parseLabels strict (splitOnChar ' ' data.data) [] []

/-- Spec-side description of one token: keep the token only when it
contains exactly one `=`, splitting into key and value at that `=`. -/
def parseSpecToken (m : Labels) (tok : List Char) : Labels :=
  if tok.count '=' = 1 then
    insertL m (String.mk (tok.takeWhile (· != '='))) (String.mk ((tok.dropWhile (· != '=')).drop 1))
  else m

/-- Spec-side description of the whole parse, written from the spec's
words: split on single spaces, keep only tokens with exactly one `=`,
last token wins on duplicate keys. -/
def parseSpec (data : String) : Labels :=
  (splitOnChar ' ' data.data).foldl parseSpecToken []

/-- The warnings the spec predicts: one per token with a wrong number of
`=` signs, in token order. -/
def specWarnings (data : String) : List String :=
  ((splitOnChar ' ' data.data).filter fun t => t.count '=' != 1).map skipMsg

/-! ## The reconciler: `LabelMaker.apply_node_labels`

Every external mutation is a `kubectl label` invocation, either
`set key val` (`label node N key=val --overwrite`) or `remove key`
(`label node N key-`).  On success a set inserts the pair into the node's
label map and a remove erases the key.  `apply_node_labels` additionally
updates the persisted `current_labels` store eagerly after individual
operations: the removal loop deletes the key right after a successful
remove, the add loop records `key ↦ val` right after a successful set;
no other operation touches the store.  Since every branch of
`apply_node_labels` is decided by data available before the first
mutation (the config string, the persisted store, the environment
variable and one live read that precedes all mutations), the function is
faithfully represented as a *plan*: the exact list of operations it will
issue, paired with each operation's store effect, executed in order. -/

/-- A `kubectl label` mutation. -/
inductive Op
  | set (key val : String)
  | remove (key : String)
deriving DecidableEq, Repr

/-- The node label key an operation touches. -/
def Op.key : Op → String
  | .set k _ => k
  | .remove k => k

/-- Applying a successful operation to the node's label map. -/
def Op.applyTo : Op → Labels → Labels
  | .set k v, l => insertL l k v
  | .remove k, l => eraseL l k

/-- The `retry_msg` of the operation, which becomes the `NodeLabelError`
message when retries are exhausted. -/
def Op.retryMsg : Op → String
  | .set k v => "Failed to apply label " ++ k ++ "=" ++ v ++ ". Will retry."
  | .remove k => "Failed to remove label " ++ k ++ ". Will retry."

/-- The eager persisted-store effect performed right after an operation
succeeds. -/
inductive CurEff
  | keep
  | del (key : String)
  | put (key val : String)
deriving DecidableEq, Repr

/-- The store key an effect touches, if any. -/
def CurEff.key? : CurEff → Option String
  | .keep => none
  | .del k => some k
  | .put k _ => some k

/-- Applying a store effect to the persisted `current_labels` map. -/
def CurEff.applyTo : CurEff → Labels → Labels
  | .keep, l => l
  | .del k, l => eraseL l k
  | .put k v, l => insertL l k v

/-- One step of the reconciliation: a mutation and its store effect. -/
structure Act where
  op : Op
  eff : CurEff
deriving DecidableEq, Repr

/-- Reconciler state: the node's labels in the cluster and the persisted
`current_labels` store. -/
structure St where
  node : Labels
  cur : Labels
deriving DecidableEq, Repr

/-- A raised python exception: its class, its message, and the state at
the moment of the raise (mutations already performed are kept; there is
no rollback). -/
structure Fail where
  cls : String
  msg : String
  st : St
deriving DecidableEq, Repr

/-- Execution environment of one `apply_node_labels` call. -/
structure Env where
  /-- Value of `self.charm.model.config[self.user_labels_key]`. -/
  labelsConfig : String
  /-- Value of `self._raise_invalid_label`. -/
  raiseInvalidLabel : Bool
  /-- Value of `os.getenv(JUJU_AVAILABILITY_ZONE)`. -/
  jujuAz : Option String
  /-- whether the `kubectl get node ... jsonpath` read inside
  `active_labels` succeeds within its retry deadline and its output
  decodes as JSON. -/
  readOk : Bool
  /-- Value of `self.charm.model.app.name`. -/
  appName : String
  /-- Value of `self.charm.meta.name`. -/
  charmName : String
  /-- Value of `self.charm.get_cloud_name()`. -/
  cloudName : String

def TOPOLOGY_NODE_LABEL : String := "topology.kubernetes.io/zone"

def DEFAULT_TIMEOUT : Nat := 180

/-- Model of `active_labels` as seen from inside `apply_node_labels` (the kubectl
binary is assumed resolvable here; its resolution is modelled separately
for the read-path claims): the live node labels on success, `None` on
command failure or undecodable output. -/
def active_labels_live (env : Env) (node : Labels) : Option Labels :=
  if env.readOk then some node else none

/-- Model of `get_label`: `None` when the read is unavailable, else the label's
value. -/
def get_label (env : Env) (node : Labels) (key : String) : Option String :=
  match active_labels_live env node with
  | none => none
  | some l => lookupL l key

/-- The availability-zone step: `if juju_az and not self.get_label(...)`,
issuing `set_label(TOPOLOGY_NODE_LABEL, juju_az)` (no store effect). -/
def zoneActs (env : Env) (node : Labels) : List Act :=
  match env.jujuAz with
  | none => []
  | some az =>
    if az = "" then []
    else if truthy (get_label env node TOPOLOGY_NODE_LABEL) then []
    else [⟨.set TOPOLOGY_NODE_LABEL az, .keep⟩]

/-- The removal loop: for each key of `list(current_labels.keys())` not in
`user_labels`, `remove_label(key)` then `del current_labels[key]`. -/
def removalActs (uls : Labels) : List String → List Act
  | [] => []
  | k :: ks =>
    if (lookupL uls k).isSome then removalActs uls ks
    else ⟨.remove k, .del k⟩ :: removalActs uls ks

/-- The add loop: for each `(key, val)` of `user_labels`, a remove when
the value ends with a dash (no store effect), otherwise a set followed by
`current_labels[key] = val`. -/
def addActs : Labels → List Act
  | [] => []
  | (k, v) :: rest =>
    (if endsDash v then Act.mk (.remove k) .keep else Act.mk (.set k v) (.put k v))
      :: addActs rest

/-- The unconditional identity labels. -/
def derivedActs (env : Env) : List Act :=
  [⟨.set "juju-application" env.appName, .keep⟩, ⟨.set "juju-charm" env.charmName, .keep⟩]

/-- The fixed ordered `juju_io_cloud_labels` table. -/
def juju_io_cloud_labels : List (String × String) :=
  [("aws", "ec2"), ("gcp", "gce"), ("openstack", "openstack"),
   ("vsphere", "vsphere"), ("azure", "azure")]

/-- The `for ... else` loop over the cloud table: the first entry whose
endpoint equals the active cloud name sets the label; if none matches the
label is removed. -/
def cloudLoop (cloud : String) : List (String × String) → List Act
  | [] => [⟨.remove "juju.io/cloud", .keep⟩]
  | (e, l) :: rest =>
    if e = cloud then [⟨.set "juju.io/cloud" l, .keep⟩] else cloudLoop cloud rest

def cloudActs (cloud : String) : List Act :=
  cloudLoop cloud juju_io_cloud_labels

/-- The full plan of one `apply_node_labels` call, in program order. -/
def planOps (env : Env) (uls : Labels) (s : St) : List Act :=
  zoneActs env s.node ++ removalActs uls (keysL s.cur) ++ addActs uls
    ++ derivedActs env ++ cloudActs env.cloudName

/-- Successful execution of one act. -/
def applyAct (s : St) (a : Act) : St :=
  ⟨a.op.applyTo s.node, a.eff.applyTo s.cur⟩

/-- Executing a plan in which every command succeeds. -/
def execPure (acts : List Act) (s : St) : St :=
  acts.foldl applyAct s

/-- Executing a plan in an environment in which the invocation with index
`failAt` (when present) fails until its retry deadline: the operation
raises `NodeLabelError` carrying its retry message, the store effect of
the failed operation is not performed, and no later operation is
attempted. -/
def execActs (failAt : Option Nat) : List Act → St → Except Fail St
  | [], s => .ok s
  | a :: rest, s =>
    if failAt = some 0 then .error ⟨"NodeLabelError", a.op.retryMsg, s⟩
    else execActs (failAt.map (· - 1)) rest (applyAct s a)

/-- Model of `LabelMaker.apply_node_labels`: parse the configured labels (strict
mode raises `NodeLabelError` on the first malformed token, before any
mutation), then execute the reconciliation plan. -/
def apply_node_labels (env : Env) (failAt : Option Nat) (s : St) : Except Fail St :=
  match user_labels env.raiseInvalidLabel env.labelsConfig with
  | .error msg => .error ⟨"NodeLabelError", msg, s⟩
  | .ok (uls, _) => execActs failAt (planOps env uls s) s

/-! ## `LabelMaker.active_labels` with kubectl binary resolution

`active_labels` first builds the command via `_kubectl`, which — when the
configured kubectl path does not exist — resolves the binary through
`which kubectl` using `_retried_call`; that call raises `NodeLabelError`
when it exhausts its retries, and the raise is *outside* the
`try/except` guarding the node read. -/

/-- Environment of one `active_labels` call. -/
structure ReadEnv where
  /-- Whether `_is_kubectl(self.kubectl_path)` holds: the configured binary exists. -/
  kubectlFound : Bool
  /-- the `which kubectl` fallback succeeds within its retry deadline. -/
  whichOk : Bool
  /-- the `kubectl get node ... jsonpath` command succeeds within its
  retry deadline. -/
  getOk : Bool
  /-- the result of `json.loads` on the command output: the decoded
  mapping, or `none` on `JSONDecodeError`. -/
  parsed : Option Labels

/-- Model of `LabelMaker.active_labels`: `.error` models a raised
`NodeLabelError`, `.ok none` the explicit unavailable result. -/
def active_labels (e : ReadEnv) : Except String (Option Labels) :=
  if !e.kubectlFound && !e.whichOk then .error "Failed to find kubectl. Will retry."
  else if !e.getOk then .ok none
  else .ok e.parsed

/-! ## `LabelMaker._retried_call` timing

Discrete-time model: the command itself is instantaneous; attempt `t`
happens at time `t` (a failed attempt is followed by `time.sleep(1)`),
and the loop runs while the current time is before `deadline = timeout`.
The result carries the time of the successful attempt, or the retry
message and the time of the raise. -/

def retriedAux (ok : Nat → Bool) (msg : String) : Nat → Nat → Except (String × Nat) Nat
  | 0, t => .error (msg, t)
  | r + 1, t => if ok t then .ok t else retriedAux ok msg r (t + 1)

/-- Model of `LabelMaker._retried_call` with per-attempt outcome `ok` and total
timeout `timeout`. -/
def retried_call (ok : Nat → Bool) (msg : String) (timeout : Nat) : Except (String × Nat) Nat :=
  retriedAux ok msg timeout 0

/-! ## Spec-side characterisations used in theorem statements -/

/-- The first token of the list on which `item.split("=")` does not
produce exactly two parts. -/
def firstMalformed : List (List Char) → Option (List Char)
  | [] => none
  | t :: rest =>
    if (splitOnChar '=' t).length = 2 then firstMalformed rest else some t

/-- Spec-side cloud label resolution: the value paired with the first
provider of the fixed table matching the identity, if any. -/
def cloudSpec (cloud : String) : Option String :=
  (juju_io_cloud_labels.find? fun p => p.1 == cloud).map Prod.snd

/-- Whether the availability-zone step issues a set. -/
def zoneGuard (env : Env) (node : Labels) : Bool :=
  match env.jujuAz with
  | none => false
  | some az =>
    if az = "" then false
    else !truthy (get_label env node TOPOLOGY_NODE_LABEL)

/-- The availability-zone value (meaningful when `zoneGuard` holds). -/
def azVal (env : Env) : String := env.jujuAz.getD ""

/-- The node label a successful full run leaves at key `j`, as a function
of the environment, parsed user labels and initial state. -/
def nodeSpec (env : Env) (uls : Labels) (s : St) (j : String) : Option String :=
  if j = "juju.io/cloud" then cloudSpec env.cloudName
  else if j = "juju-charm" then some env.charmName
  else if j = "juju-application" then some env.appName
  else
    match lookupL uls j with
    | some v => if endsDash v then none else some v
    | none =>
      if j ∈ keysL s.cur then none
      else if j = TOPOLOGY_NODE_LABEL ∧ zoneGuard env s.node = true then some (azVal env)
      else lookupL s.node j

/-- The persisted `current_labels` entry a successful full run leaves at
key `j`. -/
def curSpec (uls cur0 : Labels) (j : String) : Option String :=
  match lookupL uls j with
  | some v => if endsDash v then lookupL cur0 j else some v
  | none => none

/-- The operation is a no-op at state `s`: an overwrite with the value
already present, or a removal of an absent key. -/
def opFixedAt (s : St) : Op → Prop
  | .set k v => lookupL s.node k = some v
  | .remove k => lookupL s.node k = none

/-- Every operation of the plan, at the moment it executes (starting from
`s`), is a no-op in the sense of `opFixedAt`. -/
def planStable (acts : List Act) (s : St) : Prop :=
  ∀ i (h : i < acts.length), opFixedAt (execPure (acts.take i) s) (acts.get ⟨i, h⟩).op

/-! ## Association-list lemmas -/

theorem lookupL_insertL (l : Labels) (k v j : String) :
    lookupL (insertL l k v) j = if j = k then some v else lookupL l j := by
  induction l with
  | nil =>
    simp only [insertL, lookupL]
    by_cases h : j = k
    · rw [if_pos h.symm, if_pos h]
    · rw [if_neg (fun h2 : k = j => h h2.symm), if_neg h]
  | cons p rest ih =>
    obtain ⟨pk, pv⟩ := p
    simp only [insertL]
    by_cases h : pk = k
    · subst h
      simp only [if_pos rfl, lookupL]
      by_cases hj : pk = j
      · rw [if_pos hj, if_pos hj.symm]
      · rw [if_neg hj, if_neg (fun h2 : j = pk => hj h2.symm), if_neg hj]
    · simp only [if_neg h, lookupL]
      by_cases hj : pk = j
      · rw [if_pos hj, if_neg (show ¬ j = k from fun h2 => h (hj.trans h2)), if_pos hj]
      · simp only [if_neg hj]
        exact ih

theorem lookupL_eraseL (l : Labels) (k j : String) :
    lookupL (eraseL l k) j = if j = k then none else lookupL l j := by
  induction l with
  | nil =>
    simp only [eraseL, List.filter_nil, lookupL]
    by_cases h : j = k <;> simp [h]
  | cons p rest ih =>
    obtain ⟨pk, pv⟩ := p
    simp only [eraseL, List.filter_cons] at ih ⊢
    by_cases h : pk = k
    · subst h
      simp only [bne_self_eq_false, Bool.false_eq_true, if_false]
      rw [ih]
      by_cases hj : j = pk
      · rw [if_pos hj, if_pos hj]
      · rw [if_neg hj, if_neg hj, lookupL, if_neg (fun h2 : pk = j => hj h2.symm)]
    · have hb : ((pk, pv).1 != k) = true := bne_iff_ne.mpr h
      simp only [hb, if_true, lookupL]
      by_cases hj : pk = j
      · rw [if_pos hj, if_pos hj,
          if_neg (show ¬ j = k from fun h2 => h (hj.trans h2))]
      · rw [if_neg hj, if_neg hj, ih]

theorem lookupL_eq_none_of_not_mem_keys {l : Labels} {j : String}
    (h : j ∉ keysL l) : lookupL l j = none := by
  induction l with
  | nil => rfl
  | cons p rest ih =>
    obtain ⟨pk, pv⟩ := p
    simp only [keysL, List.map_cons, List.mem_cons] at h
    push_neg at h
    simp only [lookupL, if_neg (fun h2 : pk = j => h.1 h2.symm)]
    exact ih (by simpa [keysL] using h.2)

theorem mem_keys_of_lookupL_isSome {l : Labels} {j : String}
    (h : (lookupL l j).isSome) : j ∈ keysL l := by
  by_contra hm
  rw [lookupL_eq_none_of_not_mem_keys hm] at h
  simp at h

theorem lookupL_isSome_of_mem_keys {l : Labels} {j : String}
    (h : j ∈ keysL l) : (lookupL l j).isSome := by
  induction l with
  | nil => simp [keysL] at h
  | cons p rest ih =>
    obtain ⟨pk, pv⟩ := p
    simp only [keysL, List.map_cons, List.mem_cons] at h
    simp only [lookupL]
    by_cases hj : pk = j
    · simp [hj]
    · simp only [if_neg hj]
      rcases h with h | h
      · exact absurd h.symm hj
      · exact ih (by simpa [keysL] using h)

theorem mem_keys_insertL (l : Labels) (k v j : String) :
    j ∈ keysL (insertL l k v) ↔ j ∈ keysL l ∨ j = k := by
  induction l with
  | nil => simp [insertL, keysL]
  | cons p rest ih =>
    obtain ⟨pk, pv⟩ := p
    simp only [insertL]
    by_cases h : pk = k
    · subst h
      rw [if_pos rfl]
      simp only [keysL, List.map_cons, List.mem_cons]
      tauto
    · rw [if_neg h]
      simp only [keysL, List.map_cons, List.mem_cons] at ih ⊢
      rw [ih]
      tauto

theorem nodup_keys_insertL {l : Labels} (k v : String)
    (h : (keysL l).Nodup) : (keysL (insertL l k v)).Nodup := by
  induction l with
  | nil => simp [insertL, keysL]
  | cons p rest ih =>
    obtain ⟨pk, pv⟩ := p
    simp only [keysL, List.map_cons, List.nodup_cons] at h
    simp only [insertL]
    by_cases hk : pk = k
    · subst hk
      simpa [keysL] using h
    · simp only [if_neg hk, keysL, List.map_cons, List.nodup_cons]
      constructor
      · intro hm
        rcases (mem_keys_insertL rest k v pk).mp (by simpa [keysL] using hm) with hm | hm
        · exact h.1 (by simpa [keysL] using hm)
        · exact hk hm
      · exact ih (by simpa [keysL] using h.2)

theorem lookupL_of_mem_nodup {l : Labels} {k v : String}
    (hnd : (keysL l).Nodup) (hm : (k, v) ∈ l) : lookupL l k = some v := by
  induction l with
  | nil => simp at hm
  | cons p rest ih =>
    obtain ⟨pk, pv⟩ := p
    simp only [List.mem_cons] at hm
    simp only [keysL, List.map_cons, List.nodup_cons] at hnd
    rcases hm with hm | hm
    · injection hm with h1 h2
      simp [lookupL, h1, h2]
    · simp only [lookupL]
      by_cases hj : pk = k
      · subst hj
        exact absurd (by simpa [keysL] using List.mem_map_of_mem Prod.fst hm) hnd.1
      · simp only [if_neg hj]
        exact ih (by simpa [keysL] using hnd.2) hm

/-! ## `splitOnChar` lemmas -/

theorem splitOnChar_ne_nil (sep : Char) (l : List Char) : splitOnChar sep l ≠ [] := by
  cases l with
  | nil => simp [splitOnChar]
  | cons c cs =>
    simp only [splitOnChar]
    by_cases h : c = sep
    · simp [h]
    · simp only [if_neg h]
      rcases hs : splitOnChar sep cs with _ | ⟨t, ts⟩ <;> simp

theorem length_splitOnChar (sep : Char) (l : List Char) :
    (splitOnChar sep l).length = l.count sep + 1 := by
  induction l with
  | nil => simp [splitOnChar]
  | cons c cs ih =>
    simp only [splitOnChar]
    by_cases h : c = sep
    · subst h
      simp [List.count_cons, ih]
    · simp only [if_neg h]
      rcases hs : splitOnChar sep cs with _ | ⟨t, ts⟩
      · exact absurd hs (splitOnChar_ne_nil sep cs)
      · rw [hs] at ih
        simp only [List.length_cons] at ih ⊢
        have hb : (c == sep) = false := beq_eq_false_iff_ne.mpr h
        simp [List.count_cons, hb, ih]

theorem splitOnChar_count_zero {sep : Char} {l : List Char}
    (h : l.count sep = 0) : splitOnChar sep l = [l] := by
  induction l with
  | nil => rfl
  | cons c cs ih =>
    rw [List.count_cons] at h
    have hc : ¬ (c = sep) := by
      intro he
      rw [if_pos (by simp [he])] at h
      omega
    have hcs : cs.count sep = 0 := by
      rw [if_neg (by simp [hc])] at h
      omega
    simp [splitOnChar, hc, ih hcs]

theorem splitOnChar_count_one {sep : Char} {l : List Char}
    (h : l.count sep = 1) :
    splitOnChar sep l
      = [l.takeWhile (· != sep), (l.dropWhile (· != sep)).drop 1] := by
  induction l with
  | nil => simp at h
  | cons c cs ih =>
    rw [List.count_cons] at h
    by_cases hc : c = sep
    · subst hc
      have hcs : cs.count c = 0 := by
        rw [if_pos (by simp)] at h
        omega
      simp [splitOnChar, splitOnChar_count_zero hcs, List.takeWhile, List.dropWhile]
    · have hcs : cs.count sep = 1 := by
        rw [if_neg (by simp [hc])] at h
        omega
      have hbn : (c != sep) = true := bne_iff_ne.mpr hc
      simp only [splitOnChar, if_neg hc, ih hcs, List.takeWhile, List.dropWhile, hbn]

theorem count_one_of_splitOnChar_two {sep : Char} {l : List Char} {a b : List Char}
    (h : splitOnChar sep l = [a, b]) : l.count sep = 1 := by
  have := length_splitOnChar sep l
  rw [h] at this
  simpa using this.symm

/-! ## Parse lemmas -/

theorem parseLabels_false_eq (toks : List (List Char)) :
    ∀ acc warns, parseLabels false toks acc warns
      = .ok (toks.foldl parseSpecToken acc,
              warns ++ (toks.filter fun t => t.count '=' != 1).map skipMsg) := by
  induction toks with
  | nil => intro acc warns; simp [parseLabels]
  | cons t rest ih =>
    intro acc warns
    rcases hs : splitOnChar '=' t with _ | ⟨k, ts⟩
    · exact absurd hs (splitOnChar_ne_nil '=' t)
    · rcases ts with _ | ⟨v, ts2⟩
      · have hc : t.count '=' ≠ 1 := by
          intro h1
          rw [splitOnChar_count_one h1] at hs
          simp at hs
        have hb : (t.count '=' != 1) = true := bne_iff_ne.mpr hc
        simp only [parseLabels, hs, Bool.false_eq_true, if_false]
        rw [ih]
        simp [List.filter_cons, hb, List.foldl_cons, parseSpecToken, hc]
      · rcases ts2 with _ | ⟨w, ts3⟩
        · have hc : t.count '=' = 1 := count_one_of_splitOnChar_two hs
          have hsp := splitOnChar_count_one hc
          rw [hs] at hsp
          injection hsp with h1 h2
          injection h2 with h2 h3
          have hb : (t.count '=' != 1) = false := by simp [hc]
          simp only [parseLabels, hs]
          rw [ih]
          simp [List.filter_cons, hb, List.foldl_cons, parseSpecToken, hc, h1, h2]
        · have hc : t.count '=' ≠ 1 := by
            intro h1
            rw [splitOnChar_count_one h1] at hs
            simp at hs
          have hb : (t.count '=' != 1) = true := bne_iff_ne.mpr hc
          simp only [parseLabels, hs, Bool.false_eq_true, if_false]
          rw [ih]
          simp [List.filter_cons, hb, List.foldl_cons, parseSpecToken, hc]

theorem parseLabels_true_error {toks : List (List Char)} {tok : List Char}
    (h : firstMalformed toks = some tok) :
    ∀ acc warns, parseLabels true toks acc warns = .error (malformedMsg tok) := by
  induction toks with
  | nil => simp [firstMalformed] at h
  | cons t rest ih =>
    intro acc warns
    simp only [firstMalformed] at h
    by_cases hm : (splitOnChar '=' t).length = 2
    · rw [if_pos hm] at h
      rcases hs : splitOnChar '=' t with _ | ⟨k, ts⟩
      · exact absurd hs (splitOnChar_ne_nil '=' t)
      · rcases ts with _ | ⟨v, ts2⟩
        · rw [hs] at hm; simp at hm
        · rcases ts2 with _ | ⟨w, ts3⟩
          · simp only [parseLabels, hs]
            exact ih h _ _
          · rw [hs] at hm; simp at hm
    · rw [if_neg hm] at h
      injection h with h
      subst h
      rcases hs : splitOnChar '=' t with _ | ⟨k, ts⟩
      · exact absurd hs (splitOnChar_ne_nil '=' t)
      · rcases ts with _ | ⟨v, ts2⟩
        · simp [parseLabels, hs]
        · rcases ts2 with _ | ⟨w, ts3⟩
          · rw [hs] at hm; simp at hm
          · simp [parseLabels, hs]

theorem nodup_keys_parseLabels {strict : Bool} {uls : Labels} {w : List String} :
    ∀ toks (acc : Labels) (warns : List String), (keysL acc).Nodup →
      parseLabels strict toks acc warns = .ok (uls, w) → (keysL uls).Nodup := by
  intro toks
  induction toks with
  | nil =>
    intro acc warns hnd h
    simp only [parseLabels] at h
    injection h with h
    injection h with h1 h2
    exact h1 ▸ hnd
  | cons t rest ih =>
    intro acc warns hnd h
    rcases hs : splitOnChar '=' t with _ | ⟨k, ts⟩
    · exact absurd hs (splitOnChar_ne_nil '=' t)
    · rcases ts with _ | ⟨v, ts2⟩
      · simp only [parseLabels, hs] at h
        cases strict with
        | false =>
          simp only [Bool.false_eq_true, if_false] at h
          exact ih _ _ hnd h
        | true => simp at h
      · rcases ts2 with _ | ⟨w2, ts3⟩
        · simp only [parseLabels, hs] at h
          exact ih _ _ (nodup_keys_insertL _ _ hnd) h
        · simp only [parseLabels, hs] at h
          cases strict with
          | false =>
            simp only [Bool.false_eq_true, if_false] at h
            exact ih _ _ hnd h
          | true => simp at h

theorem nodup_keys_user_labels {strict : Bool} {d : String} {uls : Labels}
    {w : List String} (h : user_labels strict d = .ok (uls, w)) :
    (keysL uls).Nodup := by
  exact nodup_keys_parseLabels _ [] [] (by simp [keysL]) h

/-! ## Executor lemmas -/

theorem execActs_none (acts : List Act) : ∀ s, execActs none acts s = .ok (execPure acts s) := by
  induction acts with
  | nil => intro s; simp [execActs, execPure]
  | cons a rest ih =>
    intro s
    simp only [execActs, execPure, List.foldl_cons]
    rw [show (Option.map (· - 1) (none : Option Nat)) = none from rfl]
    exact ih (applyAct s a)

theorem execActs_some_lt (acts : List Act) :
    ∀ k s (h : k < acts.length),
      execActs (some k) acts s
        = .error ⟨"NodeLabelError", (acts.get ⟨k, h⟩).op.retryMsg, execPure (acts.take k) s⟩ := by
  induction acts with
  | nil => intro k s h; simp at h
  | cons a rest ih =>
    intro k s h
    cases k with
    | zero =>
      simp [execActs, execPure, List.take]
    | succ k =>
      have hk : k < rest.length := by simpa using h
      simp only [execActs, if_neg (by simp : ¬ (some (k + 1) = some 0))]
      rw [show Option.map (· - 1) (some (k + 1)) = some k by simp]
      rw [ih k (applyAct s a) hk]
      simp [execPure, List.take_succ_cons]

theorem execPure_append (as bs : List Act) (s : St) :
    execPure (as ++ bs) s = execPure bs (execPure as s) := by
  simp [execPure, List.foldl_append]

theorem execPure_node_untouched (acts : List Act) :
    ∀ s j, (∀ a ∈ acts, a.op.key ≠ j) →
      lookupL (execPure acts s).node j = lookupL s.node j := by
  induction acts with
  | nil => intro s j _; rfl
  | cons a rest ih =>
    intro s j h
    simp only [execPure, List.foldl_cons]
    rw [show List.foldl applyAct (applyAct s a) rest = execPure rest (applyAct s a) from rfl]
    rw [ih _ j (fun b hb => h b (List.mem_cons_of_mem a hb))]
    have hk : a.op.key ≠ j := h a (List.mem_cons_self a rest)
    cases hop : a.op with
    | set k v =>
      rw [hop] at hk
      simp only [applyAct, hop, Op.applyTo]
      rw [lookupL_insertL]
      exact if_neg (fun h2 : j = k => hk (h2.symm ▸ rfl))
    | remove k =>
      rw [hop] at hk
      simp only [applyAct, hop, Op.applyTo]
      rw [lookupL_eraseL]
      exact if_neg (fun h2 : j = k => hk (h2.symm ▸ rfl))

theorem execPure_cur_untouched (acts : List Act) :
    ∀ s j, (∀ a ∈ acts, a.eff.key? ≠ some j) →
      lookupL (execPure acts s).cur j = lookupL s.cur j := by
  induction acts with
  | nil => intro s j _; rfl
  | cons a rest ih =>
    intro s j h
    simp only [execPure, List.foldl_cons]
    rw [show List.foldl applyAct (applyAct s a) rest = execPure rest (applyAct s a) from rfl]
    rw [ih _ j (fun b hb => h b (List.mem_cons_of_mem a hb))]
    have hk : a.eff.key? ≠ some j := h a (List.mem_cons_self a rest)
    cases heff : a.eff with
    | keep => simp [applyAct, heff, CurEff.applyTo]
    | del k =>
      rw [heff] at hk
      simp only [applyAct, heff, CurEff.applyTo]
      rw [lookupL_eraseL]
      refine if_neg (fun h2 : j = k => hk ?_)
      simp [CurEff.key?, h2]
    | put k v =>
      rw [heff] at hk
      simp only [applyAct, heff, CurEff.applyTo]
      rw [lookupL_insertL]
      refine if_neg (fun h2 : j = k => hk ?_)
      simp [CurEff.key?, h2]

/-! ## Segment lemmas -/

theorem zoneActs_eq (env : Env) (node : Labels) :
    zoneActs env node
      = if zoneGuard env node = true
        then [⟨.set TOPOLOGY_NODE_LABEL (azVal env), .keep⟩] else [] := by
  rcases haz : env.jujuAz with _ | az
  · simp [zoneActs, zoneGuard, haz]
  · simp only [zoneActs, zoneGuard, haz, azVal, Option.getD_some]
    by_cases he : az = ""
    · simp [he]
    · simp only [if_neg he]
      by_cases ht : truthy (get_label env node TOPOLOGY_NODE_LABEL) = true
      · simp [ht]
      · simp [Bool.not_eq_true _ ▸ ht, Bool.eq_false_iff.mpr ht]

theorem zone_exec (env : Env) (s : St) :
    execPure (zoneActs env s.node) s
      = if zoneGuard env s.node = true
        then ⟨insertL s.node TOPOLOGY_NODE_LABEL (azVal env), s.cur⟩ else s := by
  rw [zoneActs_eq]
  by_cases hg : zoneGuard env s.node = true
  · simp [hg, execPure, applyAct, Op.applyTo, CurEff.applyTo]
  · simp [hg, execPure]

theorem removal_exec_node (uls : Labels) :
    ∀ ks (s : St) j,
      lookupL (execPure (removalActs uls ks) s).node j
        = if j ∈ ks ∧ lookupL uls j = none then none else lookupL s.node j := by
  intro ks
  induction ks with
  | nil => intro s j; simp [removalActs, execPure]
  | cons k ks ih =>
    intro s j
    simp only [removalActs]
    by_cases hk : (lookupL uls k).isSome
    · rw [if_pos hk, ih]
      by_cases hj : j ∈ ks ∧ lookupL uls j = none
      · rw [if_pos hj, if_pos ⟨List.mem_cons_of_mem k hj.1, hj.2⟩]
      · rw [if_neg hj]
        rw [if_neg ?_]
        intro ⟨hm, hn⟩
        rcases List.mem_cons.mp hm with hm | hm
        · subst hm; rw [hn] at hk; simp at hk
        · exact hj ⟨hm, hn⟩
    · rw [if_neg hk]
      simp only [execPure, List.foldl_cons]
      rw [show List.foldl applyAct (applyAct s ⟨.remove k, .del k⟩) (removalActs uls ks)
            = execPure (removalActs uls ks) (applyAct s ⟨.remove k, .del k⟩) from rfl]
      rw [ih]
      simp only [applyAct, Op.applyTo]
      rw [lookupL_eraseL]
      by_cases hj : j ∈ ks ∧ lookupL uls j = none
      · rw [if_pos hj, if_pos ⟨List.mem_cons_of_mem k hj.1, hj.2⟩]
      · rw [if_neg hj]
        by_cases hjk : j = k
        · subst hjk
          rw [if_pos rfl, if_pos ⟨List.mem_cons_self j ks, Option.not_isSome_iff_eq_none.mp hk⟩]
        · rw [if_neg hjk]
          rw [if_neg ?_]
          intro ⟨hm, hn⟩
          rcases List.mem_cons.mp hm with hm | hm
          · exact hjk hm
          · exact hj ⟨hm, hn⟩

theorem removal_exec_cur (uls : Labels) :
    ∀ ks (s : St) j,
      lookupL (execPure (removalActs uls ks) s).cur j
        = if j ∈ ks ∧ lookupL uls j = none then none else lookupL s.cur j := by
  intro ks
  induction ks with
  | nil => intro s j; simp [removalActs, execPure]
  | cons k ks ih =>
    intro s j
    simp only [removalActs]
    by_cases hk : (lookupL uls k).isSome
    · rw [if_pos hk, ih]
      by_cases hj : j ∈ ks ∧ lookupL uls j = none
      · rw [if_pos hj, if_pos ⟨List.mem_cons_of_mem k hj.1, hj.2⟩]
      · rw [if_neg hj]
        rw [if_neg ?_]
        intro ⟨hm, hn⟩
        rcases List.mem_cons.mp hm with hm | hm
        · subst hm; rw [hn] at hk; simp at hk
        · exact hj ⟨hm, hn⟩
    · rw [if_neg hk]
      simp only [execPure, List.foldl_cons]
      rw [show List.foldl applyAct (applyAct s ⟨.remove k, .del k⟩) (removalActs uls ks)
            = execPure (removalActs uls ks) (applyAct s ⟨.remove k, .del k⟩) from rfl]
      rw [ih]
      simp only [applyAct, CurEff.applyTo]
      rw [lookupL_eraseL]
      by_cases hj : j ∈ ks ∧ lookupL uls j = none
      · rw [if_pos hj, if_pos ⟨List.mem_cons_of_mem k hj.1, hj.2⟩]
      · rw [if_neg hj]
        by_cases hjk : j = k
        · subst hjk
          rw [if_pos rfl, if_pos ⟨List.mem_cons_self j ks, Option.not_isSome_iff_eq_none.mp hk⟩]
        · rw [if_neg hjk]
          rw [if_neg ?_]
          intro ⟨hm, hn⟩
          rcases List.mem_cons.mp hm with hm | hm
          · exact hjk hm
          · exact hj ⟨hm, hn⟩

theorem removalActs_nil_of_all_present {uls : Labels} :
    ∀ {ks}, (∀ k ∈ ks, (lookupL uls k).isSome) → removalActs uls ks = [] := by
  intro ks
  induction ks with
  | nil => intro _; rfl
  | cons k ks ih =>
    intro h
    simp only [removalActs, if_pos (h k (List.mem_cons_self k ks))]
    exact ih (fun k2 hk2 => h k2 (List.mem_cons_of_mem k hk2))

theorem mem_addActs {uls : Labels} {a : Act} :
    a ∈ addActs uls
      ↔ ∃ k v, (k, v) ∈ uls
          ∧ a = (if endsDash v then Act.mk (.remove k) .keep
                 else Act.mk (.set k v) (.put k v)) := by
  induction uls with
  | nil => simp [addActs]
  | cons p rest ih =>
    obtain ⟨k, v⟩ := p
    simp only [addActs, List.mem_cons, ih]
    constructor
    · intro h
      rcases h with h | ⟨k2, v2, hm, he⟩
      · exact ⟨k, v, Or.inl rfl, h⟩
      · exact ⟨k2, v2, Or.inr hm, he⟩
    · intro ⟨k2, v2, hm, he⟩
      rcases hm with hm | hm
      · injection hm with h1 h2
        subst h1; subst h2
        exact Or.inl he
      · exact Or.inr ⟨k2, v2, hm, he⟩

theorem add_exec_node {uls : Labels} (hnd : (keysL uls).Nodup) :
    ∀ (s : St) j,
      lookupL (execPure (addActs uls) s).node j
        = match lookupL uls j with
          | some v => if endsDash v then none else some v
          | none => lookupL s.node j := by
  induction uls with
  | nil => intro s j; simp [addActs, execPure, lookupL]
  | cons p rest ih =>
    obtain ⟨k, v⟩ := p
    simp only [keysL, List.map_cons, List.nodup_cons] at hnd
    intro s j
    have hrest := ih (by simpa [keysL] using hnd.2)
    by_cases hd : endsDash v = true
    · simp only [addActs, if_pos hd, execPure, List.foldl_cons]
      rw [show List.foldl applyAct (applyAct s (Act.mk (.remove k) .keep)) (addActs rest)
            = execPure (addActs rest) (applyAct s (Act.mk (.remove k) .keep)) from rfl,
          hrest]
      by_cases hjk : k = j
      · subst hjk
        have hnr : lookupL rest k = none :=
          lookupL_eq_none_of_not_mem_keys (by simpa [keysL] using hnd.1)
        simp [hnr, lookupL, applyAct, Op.applyTo, lookupL_eraseL, hd]
      · simp only [lookupL, if_neg hjk]
        rcases hr : lookupL rest j with _ | v2
        · simp only [applyAct, Op.applyTo]
          rw [lookupL_eraseL, if_neg (fun h2 : j = k => hjk h2.symm)]
        · rfl
    · simp only [addActs, if_neg hd, execPure, List.foldl_cons]
      rw [show List.foldl applyAct (applyAct s (Act.mk (.set k v) (.put k v))) (addActs rest)
            = execPure (addActs rest) (applyAct s (Act.mk (.set k v) (.put k v))) from rfl,
          hrest]
      by_cases hjk : k = j
      · subst hjk
        have hnr : lookupL rest k = none :=
          lookupL_eq_none_of_not_mem_keys (by simpa [keysL] using hnd.1)
        simp [hnr, lookupL, applyAct, Op.applyTo, lookupL_insertL, hd]
      · simp only [lookupL, if_neg hjk]
        rcases hr : lookupL rest j with _ | v2
        · simp only [applyAct, Op.applyTo]
          rw [lookupL_insertL, if_neg (fun h2 : j = k => hjk h2.symm)]
        · rfl

theorem add_exec_cur {uls : Labels} (hnd : (keysL uls).Nodup) :
    ∀ (s : St) j,
      lookupL (execPure (addActs uls) s).cur j
        = match lookupL uls j with
          | some v => if endsDash v then lookupL s.cur j else some v
          | none => lookupL s.cur j := by
  induction uls with
  | nil => intro s j; simp [addActs, execPure, lookupL]
  | cons p rest ih =>
    obtain ⟨k, v⟩ := p
    simp only [keysL, List.map_cons, List.nodup_cons] at hnd
    intro s j
    have hrest := ih (by simpa [keysL] using hnd.2)
    by_cases hd : endsDash v = true
    · simp only [addActs, if_pos hd, execPure, List.foldl_cons]
      rw [show List.foldl applyAct (applyAct s (Act.mk (.remove k) .keep)) (addActs rest)
            = execPure (addActs rest) (applyAct s (Act.mk (.remove k) .keep)) from rfl,
          hrest]
      by_cases hjk : k = j
      · subst hjk
        have hnr : lookupL rest k = none :=
          lookupL_eq_none_of_not_mem_keys (by simpa [keysL] using hnd.1)
        simp [hnr, lookupL, applyAct, CurEff.applyTo, hd]
      · simp only [lookupL, if_neg hjk]
        rcases hr : lookupL rest j with _ | v2
        · rfl
        · rfl
    · simp only [addActs, if_neg hd, execPure, List.foldl_cons]
      rw [show List.foldl applyAct (applyAct s (Act.mk (.set k v) (.put k v))) (addActs rest)
            = execPure (addActs rest) (applyAct s (Act.mk (.set k v) (.put k v))) from rfl,
          hrest]
      by_cases hjk : k = j
      · subst hjk
        have hnr : lookupL rest k = none :=
          lookupL_eq_none_of_not_mem_keys (by simpa [keysL] using hnd.1)
        simp [hnr, lookupL, applyAct, CurEff.applyTo, lookupL_insertL, hd]
      · simp only [lookupL, if_neg hjk]
        rcases hr : lookupL rest j with _ | v2
        · simp only [applyAct, CurEff.applyTo]
          rw [lookupL_insertL, if_neg (fun h2 : j = k => hjk h2.symm)]
        · simp only [applyAct, CurEff.applyTo]
          rw [lookupL_insertL, if_neg (fun h2 : j = k => hjk h2.symm)]

theorem derived_exec (env : Env) (s : St) :
    execPure (derivedActs env) s
      = ⟨insertL (insertL s.node "juju-application" env.appName) "juju-charm" env.charmName,
         s.cur⟩ := by
  simp [derivedActs, execPure, applyAct, Op.applyTo, CurEff.applyTo]

theorem cloudLoop_eq (cloud : String) :
    ∀ table, cloudLoop cloud table
      = match (table.find? fun p => p.1 == cloud).map Prod.snd with
        | some l => [⟨.set "juju.io/cloud" l, .keep⟩]
        | none => [⟨.remove "juju.io/cloud", .keep⟩] := by
  intro table
  induction table with
  | nil => simp [cloudLoop]
  | cons p rest ih =>
    obtain ⟨e, l⟩ := p
    simp only [cloudLoop]
    by_cases h : e = cloud
    · rw [if_pos h, List.find?_cons_of_pos _ (by simpa using h)]
      rfl
    · rw [if_neg h, List.find?_cons_of_neg _ (by simpa using h)]
      exact ih

theorem cloud_exec_node (cloud : String) (s : St) (j : String) :
    lookupL (execPure (cloudActs cloud) s).node j
      = if j = "juju.io/cloud" then cloudSpec cloud else lookupL s.node j := by
  rw [cloudActs, cloudLoop_eq]
  rcases hf : (juju_io_cloud_labels.find? fun p => p.1 == cloud).map Prod.snd with _ | l
  · simp only [cloudSpec, hf, execPure, List.foldl_cons, List.foldl_nil,
      applyAct, Op.applyTo]
    rw [lookupL_eraseL]
  · simp only [cloudSpec, hf, execPure, List.foldl_cons, List.foldl_nil,
      applyAct, Op.applyTo]
    rw [lookupL_insertL]

theorem cloud_exec_cur (cloud : String) (s : St) :
    (execPure (cloudActs cloud) s).cur = s.cur := by
  rw [cloudActs, cloudLoop_eq]
  rcases hf : (juju_io_cloud_labels.find? fun p => p.1 == cloud).map Prod.snd with _ | l
    <;> simp [hf, execPure, applyAct, CurEff.applyTo]

theorem zone_exec_node (env : Env) (s : St) (j : String) :
    lookupL (execPure (zoneActs env s.node) s).node j
      = if j = TOPOLOGY_NODE_LABEL ∧ zoneGuard env s.node = true then some (azVal env)
        else lookupL s.node j := by
  rw [zoneActs_eq]
  by_cases hg : zoneGuard env s.node = true
  · rw [if_pos hg]
    simp only [execPure, List.foldl_cons, List.foldl_nil, applyAct, Op.applyTo]
    rw [lookupL_insertL]
    by_cases ht : j = TOPOLOGY_NODE_LABEL
    · rw [if_pos ht, if_pos ⟨ht, hg⟩]
    · rw [if_neg ht, if_neg (fun h => ht h.1)]
  · rw [if_neg hg]
    simp only [execPure, List.foldl_nil]
    rw [if_neg (fun h => hg h.2)]

theorem zone_exec_cur (env : Env) (s : St) :
    (execPure (zoneActs env s.node) s).cur = s.cur := by
  rw [zoneActs_eq]
  by_cases hg : zoneGuard env s.node = true
  · rw [if_pos hg]
    simp [execPure, applyAct, CurEff.applyTo]
  · rw [if_neg hg]
    rfl

theorem derived_exec_node (env : Env) (s : St) (j : String) :
    lookupL (execPure (derivedActs env) s).node j
      = if j = "juju-charm" then some env.charmName
        else if j = "juju-application" then some env.appName
        else lookupL s.node j := by
  simp only [derivedActs, execPure, List.foldl_cons, List.foldl_nil, applyAct,
    Op.applyTo, CurEff.applyTo]
  rw [lookupL_insertL, lookupL_insertL]

theorem derived_exec_cur (env : Env) (s : St) :
    (execPure (derivedActs env) s).cur = s.cur := by
  simp [derivedActs, execPure, applyAct, CurEff.applyTo]

/-! ## Characterisation of a fully successful run -/

theorem run_node_lookup (env : Env) {uls : Labels} (hnd : (keysL uls).Nodup)
    (init : St) (j : String) :
    lookupL (execPure (planOps env uls init) init).node j = nodeSpec env uls init j := by
  simp only [planOps]
  rw [execPure_append, execPure_append, execPure_append, execPure_append,
    cloud_exec_node]
  simp only [nodeSpec]
  by_cases hcl : j = "juju.io/cloud"
  · rw [if_pos hcl, if_pos hcl]
  · rw [if_neg hcl, if_neg hcl, derived_exec_node]
    by_cases hch : j = "juju-charm"
    · rw [if_pos hch, if_pos hch]
    · rw [if_neg hch, if_neg hch]
      by_cases hap : j = "juju-application"
      · rw [if_pos hap, if_pos hap]
      · rw [if_neg hap, if_neg hap, add_exec_node hnd]
        rcases hu : lookupL uls j with _ | v
        · simp only [hu]
          rw [removal_exec_node]
          by_cases hcur : j ∈ keysL init.cur
          · rw [if_pos ⟨hcur, hu⟩, if_pos hcur]
          · rw [if_neg (fun hc => hcur hc.1), if_neg hcur, zone_exec_node]
        · simp only [hu]

theorem run_cur_lookup (env : Env) {uls : Labels} (hnd : (keysL uls).Nodup)
    (init : St) (j : String) :
    lookupL (execPure (planOps env uls init) init).cur j = curSpec uls init.cur j := by
  simp only [planOps]
  rw [execPure_append, execPure_append, execPure_append, execPure_append,
    cloud_exec_cur, derived_exec_cur, add_exec_cur hnd]
  simp only [curSpec]
  rcases hu : lookupL uls j with _ | v
  · simp only [hu]
    rw [removal_exec_cur]
    by_cases hcur : j ∈ keysL init.cur
    · rw [if_pos ⟨hcur, hu⟩]
    · rw [if_neg (fun hc => hcur hc.1)]
      rw [zone_exec_cur]
      exact lookupL_eq_none_of_not_mem_keys hcur
  · simp only [hu]
    by_cases hd : endsDash v = true
    · rw [if_pos hd, if_pos hd, removal_exec_cur,
        if_neg (fun hc => by rw [hu] at hc; exact Option.noConfusion hc.2),
        zone_exec_cur]
    · rw [if_neg hd, if_neg hd]

theorem apply_ok {env : Env} {uls : Labels} {w : List String}
    (hp : user_labels env.raiseInvalidLabel env.labelsConfig = .ok (uls, w)) (init : St) :
    apply_node_labels env none init = .ok (execPure (planOps env uls init) init) := by
  simp only [apply_node_labels, hp]
  exact execActs_none _ _

theorem apply_node_labels_lookup {env : Env} {uls : Labels} {w : List String}
    {init s : St}
    (hp : user_labels env.raiseInvalidLabel env.labelsConfig = .ok (uls, w))
    (hr : apply_node_labels env none init = .ok s) :
    (∀ j, lookupL s.node j = nodeSpec env uls init j)
      ∧ (∀ j, lookupL s.cur j = curSpec uls init.cur j) := by
  rw [apply_ok hp init] at hr
  injection hr with hr
  subst hr
  exact ⟨fun j => run_node_lookup env (nodup_keys_user_labels hp) init j,
         fun j => run_cur_lookup env (nodup_keys_user_labels hp) init j⟩

/-! ## Further helper lemmas -/

theorem execPure_cur_foldl (acts : List Act) :
    ∀ s : St, (execPure acts s).cur = acts.foldl (fun c a => a.eff.applyTo c) s.cur := by
  induction acts with
  | nil => intro s; rfl
  | cons a rest ih =>
    intro s
    simp only [execPure, List.foldl_cons] at ih ⊢
    exact ih (applyAct s a)

theorem mem_of_lookupL {l : Labels} {k v : String}
    (h : lookupL l k = some v) : (k, v) ∈ l := by
  induction l with
  | nil => simp [lookupL] at h
  | cons p rest ih =>
    obtain ⟨pk, pv⟩ := p
    simp only [lookupL] at h
    by_cases hj : pk = k
    · rw [if_pos hj] at h
      injection h with h
      subst hj
      subst h
      exact List.mem_cons_self _ _
    · rw [if_neg hj] at h
      exact List.mem_cons_of_mem _ (ih h)

theorem zoneGuard_eq_true_iff {env : Env} {n : Labels} :
    zoneGuard env n = true
      ↔ ∃ az, env.jujuAz = some az ∧ az ≠ ""
          ∧ truthy (get_label env n TOPOLOGY_NODE_LABEL) = false := by
  rcases haz : env.jujuAz with _ | az
  · simp [zoneGuard, haz]
  · by_cases he : az = ""
    · simp [zoneGuard, haz, he]
    · simp [zoneGuard, haz, he, Bool.not_eq_true']

theorem planStable_of_opFixedAt {s1 : St} :
    ∀ (acts : List Act) (s : St),
      (∀ j, lookupL s.node j = lookupL s1.node j) →
      (∀ a ∈ acts, opFixedAt s1 a.op) → planStable acts s := by
  intro acts
  induction acts with
  | nil =>
    intro s _ _ i h
    simp at h
  | cons a rest ih =>
    intro s hs hall i hi
    cases i with
    | zero =>
      simp only [List.take_zero, execPure, List.foldl_nil, List.get]
      have ha := hall a (List.mem_cons_self a rest)
      cases hop : a.op with
      | set k v =>
        rw [hop] at ha
        simp only [opFixedAt, hop] at ha ⊢
        rw [hs k]
        exact ha
      | remove k =>
        rw [hop] at ha
        simp only [opFixedAt, hop] at ha ⊢
        rw [hs k]
        exact ha
    | succ i =>
      have hs2 : ∀ j, lookupL (applyAct s a).node j = lookupL s1.node j := by
        intro j
        have ha := hall a (List.mem_cons_self a rest)
        cases hop : a.op with
        | set k v =>
          rw [hop] at ha
          simp only [opFixedAt] at ha
          simp only [applyAct, hop, Op.applyTo]
          rw [lookupL_insertL]
          by_cases hj : j = k
          · rw [if_pos hj, hj, ha]
          · rw [if_neg hj, hs j]
        | remove k =>
          rw [hop] at ha
          simp only [opFixedAt] at ha
          simp only [applyAct, hop, Op.applyTo]
          rw [lookupL_eraseL]
          by_cases hj : j = k
          · rw [if_pos hj, hj, ha]
          · rw [if_neg hj, hs j]
      have hrec := ih (applyAct s a) hs2 (fun b hb => hall b (List.mem_cons_of_mem a hb))
      have hi2 : i < rest.length := by simpa using hi
      have := hrec i hi2
      simpa [planStable, execPure, List.take_succ_cons, List.foldl_cons] using this

theorem retriedAux_all_fail {ok : Nat → Bool} (msg : String)
    (hfail : ∀ t, ok t = false) :
    ∀ r t, retriedAux ok msg r t = .error (msg, t + r) := by
  intro r
  induction r with
  | zero => intro t; simp [retriedAux]
  | succ r ih =>
    intro t
    simp only [retriedAux, hfail t, Bool.false_eq_true, if_false]
    rw [ih (t + 1), show t + 1 + r = t + (r + 1) from by omega]

theorem retriedAux_first_success {ok : Nat → Bool} (msg : String) :
    ∀ n r t, n < r → (∀ u, u < n → ok (t + u) = false) → ok (t + n) = true →
      retriedAux ok msg r t = .ok (t + n) := by
  intro n
  induction n with
  | zero =>
    intro r t hr _ hok
    cases r with
    | zero => omega
    | succ r =>
      simp only [Nat.add_zero] at hok
      simp [retriedAux, hok]
  | succ n ih =>
    intro r t hr hbefore hok
    cases r with
    | zero => omega
    | succ r =>
      have h0 : ok t = false := by
        have := hbefore 0 (by omega)
        simpa using this
      simp only [retriedAux, h0, Bool.false_eq_true, if_false]
      have := ih r (t + 1) (by omega)
        (fun u hu => by
          have := hbefore (u + 1) (by omega)
          rw [show t + (u + 1) = t + 1 + u by omega] at this
          exact this)
        (by rw [show t + 1 + n = t + (n + 1) by omega]; exact hok)
      rw [this, show t + 1 + n = t + (n + 1) from by omega]

/-! ## Claim theorems -/

/-- C4: for every configuration string, `user_labels` in non-strict mode
splits the string on single spaces and produces exactly the mapping
obtained by keeping only the tokens containing exactly one `=` (split
into key and value at that `=`), with last-token-wins on duplicate keys,
and logs one skip warning per malformed token without affecting the rest
of the mapping. -/
theorem C4_parse_spec (d : String) :
    user_labels false d = .ok (parseSpec d, specWarnings d) := by
  rw [user_labels, parseSpec, specWarnings, parseLabels_false_eq]
  simp

/-- C5 counterexample: in strict mode the malformed-token failure is
raised as `NodeLabelError` — exactly the same exception class that
cluster-operation retry exhaustion raises — not a distinct
configuration-error class: both runs below produce a `Fail` whose `cls`
field is `"NodeLabelError"`. -/
theorem C5_counterexample :
    apply_node_labels ⟨"a=b=c x=1", true, none, true, "app", "charm", "aws"⟩ none ⟨[], []⟩
      = .error ⟨"NodeLabelError", "Malformed label: a=b=c.", ⟨[], []⟩⟩
    ∧ apply_node_labels ⟨"", false, none, true, "app", "charm", "aws"⟩ (some 0) ⟨[], []⟩
      = .error ⟨"NodeLabelError",
          "Failed to apply label juju-application=app. Will retry.", ⟨[], []⟩⟩ :=
  ⟨rfl, rfl⟩

/-- C5 (amended): the input `"too=many=equals not_enough_equals valid=ok"`
parses in non-strict mode to exactly `{valid ↦ ok}` with two logged
warnings; and for every configuration string containing a malformed token
with strict mode enabled, the run raises a `NodeLabelError` (the same
exception class as cluster-operation errors, distinguishable only by its
message) at the first malformed token, before any label mutation is
issued (the state passed back in the failure is the initial state). -/
theorem C5_amended :
    user_labels false "too=many=equals not_enough_equals valid=ok"
      = .ok ([("valid", "ok")],
          ["Skipping Malformed label: too=many=equals.",
           "Skipping Malformed label: not_enough_equals."])
    ∧ ∀ (env : Env) (failAt : Option Nat) (init : St) (tok : List Char),
        env.raiseInvalidLabel = true →
        firstMalformed (splitOnChar ' ' env.labelsConfig.data) = some tok →
        apply_node_labels env failAt init
          = .error ⟨"NodeLabelError", malformedMsg tok, init⟩ := by
  refine ⟨rfl, ?_⟩
  intro env failAt init tok hstrict hfm
  have hperr : user_labels true env.labelsConfig = .error (malformedMsg tok) := by
    rw [user_labels]
    exact parseLabels_true_error hfm [] []
  simp only [apply_node_labels, hstrict, hperr]

/-- Witness for C5 (amended) at a concrete strict-mode input. -/
theorem C5_amended_witness :
    ((⟨"x==1 a=b", true, none, true, "ap", "ch", "aws"⟩ : Env).raiseInvalidLabel = true)
    ∧ firstMalformed (splitOnChar ' ' ("x==1 a=b" : String).data) = some ("x==1" : String).data
    ∧ apply_node_labels ⟨"x==1 a=b", true, none, true, "ap", "ch", "aws"⟩ none ⟨[], []⟩
        = .error ⟨"NodeLabelError", "Malformed label: x==1.", ⟨[], []⟩⟩ :=
  ⟨rfl, rfl,
    C5_amended.2 ⟨"x==1 a=b", true, none, true, "ap", "ch", "aws"⟩ none ⟨[], []⟩
      ("x==1" : String).data rfl rfl⟩

/-- C8: for an operation whose underlying command fails on every
invocation, the retry loop (fixed 1-time-unit backoff, no error-class
distinction: the same loop runs whatever the per-attempt outcome
function) raises `NodeLabelError` carrying the operation's retry message
at a time no earlier than the configured timeout and no later than
timeout plus one backoff interval; the default timeout is 180 time units;
and attempts are spaced exactly one time unit apart (an operation first
succeeding at attempt `n` returns at time exactly `n`). -/
theorem C8_retry_policy (ok : Nat → Bool) (msg : String) (timeout : Nat)
    (hfail : ∀ t, ok t = false) :
    (∃ T, retried_call ok msg timeout = .error (msg, T)
      ∧ timeout ≤ T ∧ T ≤ timeout + 1)
    ∧ DEFAULT_TIMEOUT = 180
    ∧ (∀ (ok2 : Nat → Bool) n, n < timeout → (∀ t, t < n → ok2 t = false) →
        ok2 n = true → retried_call ok2 msg timeout = .ok n) := by
  refine ⟨⟨timeout, ?_, le_refl _, by omega⟩, rfl, ?_⟩
  · rw [retried_call, retriedAux_all_fail msg hfail timeout 0]
    simp
  · intro ok2 n hn hbefore hok
    rw [retried_call]
    have := @retriedAux_first_success ok2 msg n timeout 0 hn
      (fun u hu => by simpa using hbefore u hu) (by simpa using hok)
    simpa using this

/-- Witness for C8 at the default timeout with an always-failing command. -/
theorem C8_retry_policy_witness :
    (∀ t, (fun _ : Nat => false) t = false)
    ∧ ((∃ T, retried_call (fun _ => false) "Failed to remove label x. Will retry." DEFAULT_TIMEOUT
          = .error ("Failed to remove label x. Will retry.", T)
        ∧ DEFAULT_TIMEOUT ≤ T ∧ T ≤ DEFAULT_TIMEOUT + 1)
      ∧ DEFAULT_TIMEOUT = 180
      ∧ (∀ (ok2 : Nat → Bool) n, n < DEFAULT_TIMEOUT → (∀ t, t < n → ok2 t = false) →
          ok2 n = true →
          retried_call ok2 "Failed to remove label x. Will retry." DEFAULT_TIMEOUT = .ok n)) :=
  ⟨fun _ => rfl,
    C8_retry_policy (fun _ => false) "Failed to remove label x. Will retry."
      DEFAULT_TIMEOUT (fun _ => rfl)⟩

/-- C3 counterexample: in the execution environment where the configured
kubectl binary path does not exist and every external command fails,
`active_labels` raises `NodeLabelError` (from the `_kubectl` binary
resolution, which sits outside the `try/except` guarding the read)
instead of returning the unavailable result. -/
theorem C3_counterexample :
    active_labels ⟨false, false, false, none⟩
      = .error "Failed to find kubectl. Will retry." := rfl

/-- C3 (amended): whenever the kubectl binary resolves (the configured
path exists, or the `which` fallback succeeds), `active_labels` never
raises: it returns the decoded mapping when the read command succeeds and
its output decodes, and returns the explicit unavailable result `none`
both when the command fails until the retry deadline and when its output
is not parseable as JSON; only when the binary is missing and the `which`
lookup itself exhausts its retries does a `NodeLabelError` propagate. -/
theorem C3_amended (e : ReadEnv) (h : e.kubectlFound = true ∨ e.whichOk = true) :
    active_labels e = .ok (if e.getOk then e.parsed else none) := by
  obtain ⟨kf, wo, go, p⟩ := e
  simp only at h
  rcases h with h | h <;> subst h <;> cases go <;> simp [active_labels]

/-- Witness for C3 (amended): kubectl present, read command failing. -/
theorem C3_amended_witness :
    ((⟨true, false, false, some [("a", "b")]⟩ : ReadEnv).kubectlFound = true
      ∨ (⟨true, false, false, some [("a", "b")]⟩ : ReadEnv).whichOk = true)
    ∧ active_labels ⟨true, false, false, some [("a", "b")]⟩ = .ok none :=
  ⟨Or.inl rfl, by
    have := C3_amended ⟨true, false, false, some [("a", "b")]⟩ (Or.inl rfl)
    simpa using this⟩

/-- C1 counterexample: with previously applied `foo ↦ bar` and desired
configuration `foo=bar-` (a sentinel-valued entry whose key was
previously applied), the run completes without raising, removes `foo`
from the node, but leaves the stale `foo ↦ bar` entry in the persisted
`current_labels`; the persisted mapping therefore differs from the parsed
desired mapping (`foo ↦ bar` versus `foo ↦ bar-`), and the recorded key
`foo` is not set on the node at all. -/
theorem C1_counterexample :
    apply_node_labels ⟨"foo=bar-", false, none, true, "app", "charm", "aws"⟩ none
        ⟨[], [("foo", "bar")]⟩
      = .ok ⟨[("juju-application", "app"), ("juju-charm", "charm"), ("juju.io/cloud", "ec2")],
             [("foo", "bar")]⟩
    ∧ lookupL [("foo", "bar")] "foo" = some "bar"
    ∧ lookupL (parseSpec "foo=bar-") "foo" = some "bar-"
    ∧ lookupL [("juju-application", "app"), ("juju-charm", "charm"), ("juju.io/cloud", "ec2")]
        "foo" = none :=
  ⟨rfl, rfl, by decide, by decide⟩

/-- C1 (amended): after a run of `apply_node_labels` that completes
without raising, (1) every key the user removed from configuration
(previously applied, absent from the parsed desired mapping) is removed
from `current_labels`, and removed from the node as well whenever it is
not one of the reconciler-owned identity keys; (2) every desired entry
whose value does not end with the removal sentinel `-` is recorded in
`current_labels` at its desired value and set on the node at that value
(again excepting identity keys, which the derived steps overwrite); and
(3) provided no sentinel-valued desired entry has a previously applied
key, the persisted `current_labels` equals the parsed desired mapping
restricted to non-sentinel entries — a sentinel-valued entry whose key
was previously applied instead leaves the stale previous entry in
`current_labels`. -/
theorem C1_amended {env : Env} {uls : Labels} {w : List String} {init s : St}
    (hp : user_labels env.raiseInvalidLabel env.labelsConfig = .ok (uls, w))
    (hr : apply_node_labels env none init = .ok s) :
    (∀ k, k ∈ keysL init.cur → lookupL uls k = none →
        lookupL s.cur k = none
        ∧ (k ≠ "juju-application" → k ≠ "juju-charm" → k ≠ "juju.io/cloud" →
            lookupL s.node k = none))
    ∧ (∀ k v, lookupL uls k = some v → endsDash v = false →
        lookupL s.cur k = some v
        ∧ (k ≠ "juju-application" → k ≠ "juju-charm" → k ≠ "juju.io/cloud" →
            lookupL s.node k = some v))
    ∧ ((∀ k v, lookupL uls k = some v → endsDash v = true → lookupL init.cur k = none) →
        ∀ k, lookupL s.cur k
          = match lookupL uls k with
            | some v => if endsDash v then none else some v
            | none => none) := by
  obtain ⟨hnode, hcur⟩ := apply_node_labels_lookup hp hr
  refine ⟨?_, ?_, ?_⟩
  · intro k hk hu
    constructor
    · have h := hcur k
      simp only [curSpec, hu] at h
      exact h
    · intro h1 h2 h3
      have h := hnode k
      simp only [nodeSpec, hu, if_neg h3, if_neg h2, if_neg h1, if_pos hk] at h
      exact h
  · intro k v hu hd
    constructor
    · have h := hcur k
      simp only [curSpec, hu, hd, Bool.false_eq_true, if_false] at h
      exact h
    · intro h1 h2 h3
      have h := hnode k
      simp only [nodeSpec, hu, hd, Bool.false_eq_true, if_false,
        if_neg h3, if_neg h2, if_neg h1] at h
      exact h
  · intro hfree k
    have h := hcur k
    rcases hu : lookupL uls k with _ | v
    · simp only [curSpec, hu] at h
      simpa [hu] using h
    · by_cases hd : endsDash v = true
      · simp only [curSpec, hu, hd, if_true] at h
        rw [hfree k v hu hd] at h
        simpa [hu, hd] using h
      · simp only [curSpec, hu, if_neg hd] at h
        simpa [hu, if_neg hd] using h

/-- Witness for C1 (amended) at a concrete successful run. -/
theorem C1_amended_witness :
    user_labels false "a=1 b=2" = .ok ([("a", "1"), ("b", "2")], [])
    ∧ ("old" ∈ keysL (⟨[], [("old", "x")]⟩ : St).cur)
    ∧ lookupL [("a", "1"), ("b", "2")] "old" = none
    ∧ apply_node_labels ⟨"a=1 b=2", false, none, true, "app", "charm", "aws"⟩ none
        ⟨[], [("old", "x")]⟩
      = .ok ⟨[("a", "1"), ("b", "2"), ("juju-application", "app"), ("juju-charm", "charm"),
              ("juju.io/cloud", "ec2")], [("a", "1"), ("b", "2")]⟩
    ∧ lookupL [("a", "1"), ("b", "2")] "old" = none := by
  refine ⟨rfl, by decide, rfl, rfl, ?_⟩
  have h := @C1_amended ⟨"a=1 b=2", false, none, true, "app", "charm", "aws"⟩
      [("a", "1"), ("b", "2")] [] ⟨[], [("old", "x")]⟩
      ⟨[("a", "1"), ("b", "2"), ("juju-application", "app"), ("juju-charm", "charm"),
        ("juju.io/cloud", "ec2")], [("a", "1"), ("b", "2")]⟩ rfl rfl
  exact (h.1 "old" (by decide) rfl).1

/-- C2: when the invocation with index `k` of the reconciliation plan
fails after retry exhaustion, a `NodeLabelError` carrying that
operation's retry message propagates to the caller; the state returned
with the failure is exactly the execution of the plan's first `k`
operations (so no later operation is attempted and nothing is rolled
back), and its persisted `current_labels` is the initial store updated
once per successful operation by that operation's eager store effect (the
key deleted right after each successful removal-loop remove, the
key/value recorded right after each successful add). -/
theorem C2_failure_propagation {env : Env} {uls : Labels} {w : List String}
    (init : St) (k : Nat)
    (hp : user_labels env.raiseInvalidLabel env.labelsConfig = .ok (uls, w))
    (hk : k < (planOps env uls init).length) :
    apply_node_labels env (some k) init
      = .error ⟨"NodeLabelError",
          ((planOps env uls init).get ⟨k, hk⟩).op.retryMsg,
          execPure ((planOps env uls init).take k) init⟩
    ∧ (execPure ((planOps env uls init).take k) init).cur
      = ((planOps env uls init).take k).foldl (fun c a => a.eff.applyTo c) init.cur := by
  constructor
  · simp only [apply_node_labels, hp]
    exact execActs_some_lt _ k init hk
  · exact execPure_cur_foldl _ init

/-- Witness for C2: failure at the second operation of a concrete plan. -/
theorem C2_failure_propagation_witness :
    user_labels false "a=1" = .ok ([("a", "1")], [])
    ∧ 1 < (planOps ⟨"a=1", false, none, true, "app", "charm", ""⟩ [("a", "1")] ⟨[], []⟩).length
    ∧ apply_node_labels ⟨"a=1", false, none, true, "app", "charm", ""⟩ (some 1) ⟨[], []⟩
        = .error ⟨"NodeLabelError",
            "Failed to apply label juju-application=app. Will retry.",
            ⟨[("a", "1")], [("a", "1")]⟩⟩ := by
  refine ⟨rfl, by decide, ?_⟩
  have h := @C2_failure_propagation ⟨"a=1", false, none, true, "app", "charm", ""⟩
      [("a", "1")] [] ⟨[], []⟩ 1 rfl (by decide)
  exact h.1

/-- C6: the cloud step iterates the fixed ordered table
`[("aws","ec2"),("gcp","gce"),("openstack","openstack"),("vsphere","vsphere"),("azure","azure")]`;
after a successful run the node's `juju.io/cloud` label equals the value
paired with the first provider matching the cloud identity (in particular
identity `"aws"` yields `"ec2"`), and when no provider matches the label
has been removed; the issued operations are exactly a single set of the
first match, or a single remove when none matches. -/
theorem C6_cloud_resolution {env : Env} {uls : Labels} {w : List String} {init s : St}
    (hp : user_labels env.raiseInvalidLabel env.labelsConfig = .ok (uls, w))
    (hr : apply_node_labels env none init = .ok s) :
    lookupL s.node "juju.io/cloud" = cloudSpec env.cloudName
    ∧ cloudSpec "aws" = some "ec2"
    ∧ juju_io_cloud_labels
        = [("aws", "ec2"), ("gcp", "gce"), ("openstack", "openstack"),
           ("vsphere", "vsphere"), ("azure", "azure")]
    ∧ ((∀ p ∈ juju_io_cloud_labels, p.1 ≠ env.cloudName) →
        lookupL s.node "juju.io/cloud" = none)
    ∧ cloudActs env.cloudName
      = (match (juju_io_cloud_labels.find? fun p => p.1 == env.cloudName).map Prod.snd with
         | some l => [⟨.set "juju.io/cloud" l, .keep⟩]
         | none => [⟨.remove "juju.io/cloud", .keep⟩]) := by
  obtain ⟨hnode, _⟩ := apply_node_labels_lookup hp hr
  have hcl : lookupL s.node "juju.io/cloud" = cloudSpec env.cloudName := by
    have h := hnode "juju.io/cloud"
    simpa [nodeSpec] using h
  refine ⟨hcl, rfl, rfl, ?_, cloudLoop_eq _ _⟩
  intro hnone
  have hfind : juju_io_cloud_labels.find? (fun p => p.1 == env.cloudName) = none := by
    rw [List.find?_eq_none]
    intro p hp2
    simpa using hnone p hp2
  rw [hcl, cloudSpec, hfind]
  rfl

/-- Witness for C6 at cloud identity `"aws"`. -/
theorem C6_cloud_resolution_witness :
    user_labels false "" = .ok ([], ["Skipping Malformed label: ."])
    ∧ apply_node_labels ⟨"", false, none, true, "app", "charm", "aws"⟩ none ⟨[], []⟩
        = .ok ⟨[("juju-application", "app"), ("juju-charm", "charm"), ("juju.io/cloud", "ec2")],
               []⟩
    ∧ lookupL [("juju-application", "app"), ("juju-charm", "charm"), ("juju.io/cloud", "ec2")]
        "juju.io/cloud" = cloudSpec "aws" := by
  refine ⟨rfl, rfl, ?_⟩
  have h := @C6_cloud_resolution ⟨"", false, none, true, "app", "charm", "aws"⟩
      [] ["Skipping Malformed label: ."] ⟨[], []⟩
      ⟨[("juju-application", "app"), ("juju-charm", "charm"), ("juju.io/cloud", "ec2")], []⟩
      rfl rfl
  exact h.1

/-- C7: a desired entry `(k, v)` whose value ends with the removal
sentinel `-` yields a remove operation for `k` in the add loop (with no
store effect) instead of a set operation; after a successful run the
persisted entry for `k` is exactly what it was before the run (the entry
is not recorded as applied), and the label is absent from the node
(unless `k` is one of the derived identity keys, which later steps
re-set). -/
theorem C7_sentinel_entry {env : Env} {uls : Labels} {w : List String} {init s : St}
    {k v : String}
    (hp : user_labels env.raiseInvalidLabel env.labelsConfig = .ok (uls, w))
    (hr : apply_node_labels env none init = .ok s)
    (hkv : lookupL uls k = some v) (hd : endsDash v = true) :
    Act.mk (.remove k) .keep ∈ addActs uls
    ∧ lookupL s.cur k = lookupL init.cur k
    ∧ (k ≠ "juju-application" → k ≠ "juju-charm" → k ≠ "juju.io/cloud" →
        lookupL s.node k = none) := by
  obtain ⟨hnode, hcur⟩ := apply_node_labels_lookup hp hr
  refine ⟨?_, ?_, ?_⟩
  · exact mem_addActs.mpr ⟨k, v, mem_of_lookupL hkv, by simp [hd]⟩
  · have h := hcur k
    simp only [curSpec, hkv, hd, if_true] at h
    exact h
  · intro h1 h2 h3
    have h := hnode k
    simp only [nodeSpec, hkv, hd, if_true, if_neg h3, if_neg h2, if_neg h1] at h
    exact h

/-- Witness for C7 at the concrete sentinel entry `foo=bar-`. -/
theorem C7_sentinel_entry_witness :
    user_labels false "foo=bar-" = .ok ([("foo", "bar-")], [])
    ∧ lookupL [("foo", "bar-")] "foo" = some "bar-"
    ∧ endsDash "bar-" = true
    ∧ apply_node_labels ⟨"foo=bar-", false, none, true, "app", "charm", "gcp"⟩ none
        ⟨[("foo", "bar")], [("foo", "bar")]⟩
      = .ok ⟨[("juju-application", "app"), ("juju-charm", "charm"), ("juju.io/cloud", "gce")],
             [("foo", "bar")]⟩
    ∧ Act.mk (.remove "foo") .keep ∈ addActs [("foo", "bar-")]
    ∧ lookupL [("foo", "bar")] "foo" = lookupL [("foo", "bar")] "foo" := by
  refine ⟨rfl, rfl, by decide, rfl, ?_, rfl⟩
  have h := @C7_sentinel_entry ⟨"foo=bar-", false, none, true, "app", "charm", "gcp"⟩
      [("foo", "bar-")] [] ⟨[("foo", "bar")], [("foo", "bar")]⟩
      ⟨[("juju-application", "app"), ("juju-charm", "charm"), ("juju.io/cloud", "gce")],
       [("foo", "bar")]⟩ "foo" "bar-" rfl rfl rfl (by decide)
  exact h.1

/-- C10: when the availability-zone hint is present (and non-empty, as
python truthiness requires) but the live read is unavailable
(`active_labels` returns `None`, so `get_label` returns `None`), the
reconciler treats the zone label as absent: the very first operation of
the plan sets the zone label from the hint, regardless of the node's
actual zone value — so an externally-set zone value is overwritten
whenever the read fails; and because this zone step precedes the
removal/add loops, its failure aborts the run with the initial state
intact, before any user-label reconciliation is attempted. -/
theorem C10_zone_unavailable_read {env : Env} {uls : Labels} {w : List String}
    (init : St) {az : String}
    (hp : user_labels env.raiseInvalidLabel env.labelsConfig = .ok (uls, w))
    (haz : env.jujuAz = some az) (hne : az ≠ "") (hread : env.readOk = false) :
    planOps env uls init
      = ⟨.set TOPOLOGY_NODE_LABEL az, .keep⟩
        :: (removalActs uls (keysL init.cur) ++ addActs uls ++ derivedActs env
            ++ cloudActs env.cloudName)
    ∧ apply_node_labels env (some 0) init
      = .error ⟨"NodeLabelError",
          "Failed to apply label " ++ TOPOLOGY_NODE_LABEL ++ "=" ++ az ++ ". Will retry.",
          init⟩
    ∧ (lookupL uls TOPOLOGY_NODE_LABEL = none → TOPOLOGY_NODE_LABEL ∉ keysL init.cur →
        ∀ s, apply_node_labels env none init = .ok s →
          lookupL s.node TOPOLOGY_NODE_LABEL = some az) := by
  have hz : zoneActs env init.node = [⟨.set TOPOLOGY_NODE_LABEL az, .keep⟩] := by
    simp [zoneActs, haz, hne, get_label, active_labels_live, hread, truthy]
  have hplan : planOps env uls init
      = ⟨.set TOPOLOGY_NODE_LABEL az, .keep⟩
        :: (removalActs uls (keysL init.cur) ++ addActs uls ++ derivedActs env
            ++ cloudActs env.cloudName) := by
    simp [planOps, hz]
  refine ⟨hplan, ?_, ?_⟩
  · simp only [apply_node_labels, hp, hplan]
    simp [execActs, Op.retryMsg]
  · intro hu hcur s hr
    obtain ⟨hnode, _⟩ := apply_node_labels_lookup hp hr
    have hg : zoneGuard env init.node = true := by
      apply zoneGuard_eq_true_iff.mpr
      exact ⟨az, haz, hne, by simp [get_label, active_labels_live, hread, truthy]⟩
    have h := hnode TOPOLOGY_NODE_LABEL
    rw [nodeSpec] at h
    rw [if_neg (by decide), if_neg (by decide), if_neg (by decide)] at h
    rw [hu] at h
    rw [if_neg hcur, if_pos ⟨rfl, hg⟩] at h
    rw [h, azVal, haz]
    rfl

/-- Witness for C10: unavailable read with an externally-set zone value. -/
theorem C10_zone_unavailable_read_witness :
    user_labels false "" = .ok ([], ["Skipping Malformed label: ."])
    ∧ ((⟨"", false, some "az1", false, "app", "charm", ""⟩ : Env).jujuAz = some "az1")
    ∧ ("az1" : String) ≠ ""
    ∧ ((⟨"", false, some "az1", false, "app", "charm", ""⟩ : Env).readOk = false)
    ∧ apply_node_labels ⟨"", false, some "az1", false, "app", "charm", ""⟩ (some 0)
        ⟨[("topology.kubernetes.io/zone", "external")], []⟩
      = .error ⟨"NodeLabelError",
          "Failed to apply label " ++ TOPOLOGY_NODE_LABEL ++ "=" ++ "az1" ++ ". Will retry.",
          ⟨[("topology.kubernetes.io/zone", "external")], []⟩⟩ := by
  refine ⟨rfl, rfl, by decide, rfl, ?_⟩
  have h := @C10_zone_unavailable_read ⟨"", false, some "az1", false, "app", "charm", ""⟩
      [] ["Skipping Malformed label: ."] ⟨[("topology.kubernetes.io/zone", "external")], []⟩
      "az1" rfl rfl (by decide) rfl
  exact h.2.1

/-- C9 counterexample: a second reconciliation pass with unchanged
configuration and context is *not* free of net changes.  With empty
configuration, availability zone `az1`, a working read, and a stale
persisted entry for the zone label, the first pass sets the zone label
and then removes it again (the removal loop erases the stale key), while
the second pass sets it and leaves it: the node gains the zone label only
on the second pass. -/
theorem C9_counterexample :
    apply_node_labels ⟨"", false, some "az1", true, "app", "charm", ""⟩ none
        ⟨[], [("topology.kubernetes.io/zone", "x")]⟩
      = .ok ⟨[("juju-application", "app"), ("juju-charm", "charm")], []⟩
    ∧ apply_node_labels ⟨"", false, some "az1", true, "app", "charm", ""⟩ none
        ⟨[("juju-application", "app"), ("juju-charm", "charm")], []⟩
      = .ok ⟨[("juju-application", "app"), ("juju-charm", "charm"),
              ("topology.kubernetes.io/zone", "az1")], []⟩
    ∧ lookupL [("juju-application", "app"), ("juju-charm", "charm")]
        "topology.kubernetes.io/zone" = none
    ∧ lookupL [("juju-application", "app"), ("juju-charm", "charm"),
        ("topology.kubernetes.io/zone", "az1")] "topology.kubernetes.io/zone"
      = some "az1" :=
  ⟨rfl, rfl, by decide, by decide⟩

/-- C9 (amended): provided no desired key collides with the
reconciler-owned keys (`juju-application`, `juju-charm`, `juju.io/cloud`,
zone topology) and the zone-topology key is not among the previously
applied keys, a second `apply_node_labels` pass with unchanged
configuration and context produces no net change to the node's labels or
the persisted store, and every operation of the second pass, at the
moment it executes, is either an overwrite with the identical value or a
remove of an already-absent key. -/
theorem C9_amended {env : Env} {uls : Labels} {w : List String} {init s1 s2 : St}
    (hp : user_labels env.raiseInvalidLabel env.labelsConfig = .ok (uls, w))
    (hclean : ∀ k, k ∈ keysL uls →
        k ≠ "juju-application" ∧ k ≠ "juju-charm" ∧ k ≠ "juju.io/cloud"
        ∧ k ≠ TOPOLOGY_NODE_LABEL)
    (htopo : TOPOLOGY_NODE_LABEL ∉ keysL init.cur)
    (hr1 : apply_node_labels env none init = .ok s1)
    (hr2 : apply_node_labels env none s1 = .ok s2) :
    (∀ j, lookupL s2.node j = lookupL s1.node j)
    ∧ (∀ j, lookupL s2.cur j = lookupL s1.cur j)
    ∧ planStable (planOps env uls s1) s1 := by
  obtain ⟨hn1, hc1⟩ := apply_node_labels_lookup hp hr1
  obtain ⟨hn2, hc2⟩ := apply_node_labels_lookup hp hr2
  have hnd := nodup_keys_user_labels hp
  have hTu : lookupL uls TOPOLOGY_NODE_LABEL = none := by
    apply lookupL_eq_none_of_not_mem_keys
    intro hmem
    exact (hclean _ hmem).2.2.2 rfl
  have hA : ∀ k, k ∈ keysL s1.cur → (lookupL uls k).isSome = true := by
    intro k hk
    have h := hc1 k
    have hs : (lookupL s1.cur k).isSome := lookupL_isSome_of_mem_keys hk
    rw [h] at hs
    rcases hu : lookupL uls k with _ | v
    · simp only [curSpec, hu] at hs
      simp at hs
    · simp
  have hTopoS1 : lookupL s1.node TOPOLOGY_NODE_LABEL
      = if zoneGuard env init.node = true then some (azVal env)
        else lookupL init.node TOPOLOGY_NODE_LABEL := by
    have h := hn1 TOPOLOGY_NODE_LABEL
    simp only [nodeSpec, hTu] at h
    rw [if_neg (by decide), if_neg (by decide), if_neg (by decide), if_neg htopo] at h
    simpa using h
  have hB : zoneGuard env s1.node = true →
      lookupL s1.node TOPOLOGY_NODE_LABEL = some (azVal env) := by
    intro hg2
    obtain ⟨az, haz, hne, htr⟩ := zoneGuard_eq_true_iff.mp hg2
    have hazv : azVal env = az := by simp [azVal, haz]
    rcases hro : env.readOk with _ | _
    · have hg1 : zoneGuard env init.node = true := by
        apply zoneGuard_eq_true_iff.mpr
        exact ⟨az, haz, hne, by simp [get_label, active_labels_live, hro, truthy]⟩
      rw [hTopoS1, if_pos hg1]
    · exfalso
      have hget : get_label env s1.node TOPOLOGY_NODE_LABEL
          = lookupL s1.node TOPOLOGY_NODE_LABEL := by
        simp [get_label, active_labels_live, hro]
      rw [hget] at htr
      by_cases hg1 : zoneGuard env init.node = true
      · rw [hTopoS1, if_pos hg1, hazv] at htr
        simp [truthy, hne] at htr
      · have htru : truthy (get_label env init.node TOPOLOGY_NODE_LABEL) = true := by
          by_contra hc
          exact hg1 (zoneGuard_eq_true_iff.mpr ⟨az, haz, hne, by simpa using hc⟩)
        rw [show get_label env init.node TOPOLOGY_NODE_LABEL
              = lookupL init.node TOPOLOGY_NODE_LABEL from by
            simp [get_label, active_labels_live, hro]] at htru
        rw [hTopoS1, if_neg hg1, htru] at htr
        exact Bool.noConfusion htr
  have hnodeEq : ∀ j, lookupL s2.node j = lookupL s1.node j := by
    intro j
    rw [hn2 j]
    by_cases hcl : j = "juju.io/cloud"
    · rw [hn1 j]
      simp only [nodeSpec, if_pos hcl]
    · by_cases hch : j = "juju-charm"
      · rw [hn1 j]
        simp only [nodeSpec, if_neg hcl, if_pos hch]
      · by_cases hap : j = "juju-application"
        · rw [hn1 j]
          simp only [nodeSpec, if_neg hcl, if_neg hch, if_pos hap]
        · rcases hu : lookupL uls j with _ | v
          · simp only [nodeSpec, if_neg hcl, if_neg hch, if_neg hap, hu]
            have hjm : j ∉ keysL s1.cur := by
              intro hm
              have := hA j hm
              rw [hu] at this
              simp at this
            rw [if_neg hjm]
            by_cases hz : j = TOPOLOGY_NODE_LABEL ∧ zoneGuard env s1.node = true
            · rw [if_pos hz]
              obtain ⟨hjT, hg2⟩ := hz
              rw [hjT]
              exact (hB hg2).symm
            · rw [if_neg hz]
          · simp only [nodeSpec, if_neg hcl, if_neg hch, if_neg hap, hu]
            rw [hn1 j]
            simp only [nodeSpec, if_neg hcl, if_neg hch, if_neg hap, hu]
  have hcurEq : ∀ j, lookupL s2.cur j = lookupL s1.cur j := by
    intro j
    rw [hc2 j]
    rcases hu : lookupL uls j with _ | v
    · simp only [curSpec, hu]
      rw [hc1 j]
      simp only [curSpec, hu]
    · by_cases hd : endsDash v = true
      · simp only [curSpec, hu, hd, if_true]
      · simp only [curSpec, hu, if_neg hd]
        rw [hc1 j]
        simp only [curSpec, hu, if_neg hd]
  have hstable : ∀ a ∈ planOps env uls s1, opFixedAt s1 a.op := by
    intro a ha
    simp only [planOps, List.mem_append, or_assoc] at ha
    rcases ha with hz | hrm | hadd | hder | hclc
    · rw [zoneActs_eq] at hz
      by_cases hg : zoneGuard env s1.node = true
      · rw [if_pos hg] at hz
        simp only [List.mem_singleton] at hz
        subst hz
        simp only [opFixedAt]
        exact hB hg
      · rw [if_neg hg] at hz
        simp at hz
    · rw [removalActs_nil_of_all_present hA] at hrm
      simp at hrm
    · obtain ⟨k, v, hm, he⟩ := mem_addActs.mp hadd
      have hkmem : k ∈ keysL uls := by
        simpa [keysL] using List.mem_map_of_mem Prod.fst hm
      obtain ⟨hk1, hk2, hk3, _⟩ := hclean k hkmem
      have hlk : lookupL uls k = some v := lookupL_of_mem_nodup hnd hm
      by_cases hd : endsDash v = true
      · rw [if_pos hd] at he
        subst he
        simp only [opFixedAt]
        rw [hn1 k]
        simp only [nodeSpec, if_neg hk3, if_neg hk2, if_neg hk1, hlk, hd, if_true]
      · rw [if_neg hd] at he
        subst he
        simp only [opFixedAt]
        rw [hn1 k]
        simp only [nodeSpec, if_neg hk3, if_neg hk2, if_neg hk1, hlk, if_neg hd]
    · simp only [derivedActs, List.mem_cons, List.not_mem_nil, or_false] at hder
      rcases hder with hder | hder
      · subst hder
        simp only [opFixedAt]
        rw [hn1 "juju-application"]
        simp [nodeSpec]
      · subst hder
        simp only [opFixedAt]
        rw [hn1 "juju-charm"]
        simp [nodeSpec]
    · rw [cloudActs, cloudLoop_eq] at hclc
      rcases hf : (juju_io_cloud_labels.find? fun p => p.1 == env.cloudName).map Prod.snd
        with _ | l
      · simp only [hf, List.mem_singleton] at hclc
        subst hclc
        simp only [opFixedAt]
        rw [hn1 "juju.io/cloud"]
        simp only [nodeSpec, if_pos rfl]
        simp [cloudSpec, hf]
      · simp only [hf, List.mem_singleton] at hclc
        subst hclc
        simp only [opFixedAt]
        rw [hn1 "juju.io/cloud"]
        simp only [nodeSpec, if_pos rfl]
        simp [cloudSpec, hf]
  exact ⟨hnodeEq, hcurEq,
    planStable_of_opFixedAt (planOps env uls s1) s1 (fun j => rfl) hstable⟩

/-- Witness for C9 (amended) at a concrete pair of successive runs. -/
theorem C9_amended_witness :
    user_labels false "a=1" = .ok ([("a", "1")], [])
    ∧ (TOPOLOGY_NODE_LABEL ∉ keysL (⟨[], []⟩ : St).cur)
    ∧ apply_node_labels ⟨"a=1", false, none, true, "app", "charm", "aws"⟩ none ⟨[], []⟩
        = .ok ⟨[("a", "1"), ("juju-application", "app"), ("juju-charm", "charm"),
                ("juju.io/cloud", "ec2")], [("a", "1")]⟩
    ∧ apply_node_labels ⟨"a=1", false, none, true, "app", "charm", "aws"⟩ none
        ⟨[("a", "1"), ("juju-application", "app"), ("juju-charm", "charm"),
          ("juju.io/cloud", "ec2")], [("a", "1")]⟩
      = .ok ⟨[("a", "1"), ("juju-application", "app"), ("juju-charm", "charm"),
              ("juju.io/cloud", "ec2")], [("a", "1")]⟩
    ∧ lookupL [("a", "1"), ("juju-application", "app"), ("juju-charm", "charm"),
        ("juju.io/cloud", "ec2")] "a"
      = lookupL [("a", "1"), ("juju-application", "app"), ("juju-charm", "charm"),
          ("juju.io/cloud", "ec2")] "a" := by
  refine ⟨rfl, by simp [keysL], rfl, rfl, ?_⟩
  have h := @C9_amended ⟨"a=1", false, none, true, "app", "charm", "aws"⟩
      [("a", "1")] [] ⟨[], []⟩
      ⟨[("a", "1"), ("juju-application", "app"), ("juju-charm", "charm"),
        ("juju.io/cloud", "ec2")], [("a", "1")]⟩
      ⟨[("a", "1"), ("juju-application", "app"), ("juju-charm", "charm"),
        ("juju.io/cloud", "ec2")], [("a", "1")]⟩
      rfl
      (by
        intro k hk
        simp only [keysL, List.map_cons, List.map_nil, List.mem_singleton] at hk
        subst hk
        exact ⟨by decide, by decide, by decide, by decide⟩)
      (by simp [keysL]) rfl rfl
  exact h.1 "a"

end NodeBase
